import Mathlib

/-!
# Verification of the `cubed` compiler core (storage allocator, source-map
lookup, URL source sharing, pipeline properties)

Shallow embedding of the relevant source files:

* `src/core/cube/varmapper.ts` — variable mapper (`mapVariables`,
  `allocateFields`).
* `src/ui/detail/NodeDetailPanel.tsx` — `findCubeLocation` (source-map floor
  lookup).
* `src/ui/urlSource.ts` — base64url encoding (`toBase64url`,
  `fromBase64url`); the platform primitives `btoa`/`atob` are embedded by
  their standard semantics (RFC 4648 base64 over char codes).

JS `Set<string>` iteration is insertion order; a `Set` is embedded as a
`List String` (with a `Nodup` hypothesis where the claim needs it).
JS `Map` built by insertion without key collisions is embedded as an
association list in insertion order. JS numbers holding addresses are
embedded as `Int` (the RAM counter may go negative; no overflow is reachable
at these magnitudes).
-/

namespace Cubed

/-! ## varmapper.ts -/

/-- `VarLocation` from varmapper.ts: `{ RAM: 'ram', STACK: 'stack' }`. -/
inductive VarLocation where
  | ram
  | stack
deriving DecidableEq, Repr

/-- `VarMapping` from varmapper.ts: a storage location plus an optional
RAM address (present for RAM-allocated variables). -/
structure VarMapping where
  location : VarLocation
  ramAddr : Option Int
deriving DecidableEq, Repr

/-- `VariableMap` from varmapper.ts. -/
structure VariableMap where
  vars : List (String × VarMapping)
  nextRamAddr : Int
  nextFieldAddr : Nat
deriving DecidableEq, Repr

/-- JS `name.startsWith('_')` for the one-character pattern `'_'`: true iff
the first character of the name is `'_'`.  (Embedded on the char list
because Lean's `String.startsWith` does not reduce in the kernel.) -/
def startsWithUnderscore (n : String) : Bool :=
  match n.data with
  | [] => false
  | c :: _ => c == '_'

/-- The loop body of `mapVariables`: walks the variable names in iteration
order, skipping names that start with `'_'` and the name `"coord"`, and
assigns each remaining name the current RAM address, decrementing it.
Returns the accumulated entries (in insertion order) and the final counter. -/
def mapVarsLoop : List String → Int → List (String × VarMapping) × Int
  | [], addr => ([], addr)
  | n :: rest, addr =>
    if startsWithUnderscore n || n == "coord" then
      mapVarsLoop rest addr
    else
      let r := mapVarsLoop rest (addr - 1)
      ((n, ⟨VarLocation.ram, some addr⟩) :: r.1, r.2)

/-- `mapVariables` from varmapper.ts: allocates RAM addresses downward from
`0x3F` and initializes the field counter at `0x20`. -/
def mapVariables (variableNames : List String) : VariableMap :=
  let r := mapVarsLoop variableNames 0x3F
  ⟨r.1, r.2, 0x20⟩

/-- `allocateFields` from varmapper.ts: returns the current field base and
bumps the field counter by `count`.  The TS function mutates its argument
and returns the base; the embedding returns the base together with the
updated map. -/
def allocateFields (varMap : VariableMap) (count : Nat) : Nat × VariableMap :=
  (varMap.nextFieldAddr, { varMap with nextFieldAddr := varMap.nextFieldAddr + count })

/-- A name requires storage iff `mapVariables` does not skip it: it does not
start with `'_'` and is not `"coord"`. -/
def needsStorage (n : String) : Bool :=
  !(startsWithUnderscore n || n == "coord")

/-- Iterates `allocateFields` over a list of counts, collecting the returned
base addresses and threading the map, to state properties of repeated calls. -/
def allocRun (vm : VariableMap) : List Nat → List Nat × VariableMap
  | [] => ([], vm)
  | c :: cs =>
    let r := allocateFields vm c
    let rs := allocRun r.2 cs
    (r.1 :: rs.1, rs.2)

/-- Closed form of the entry list built by `mapVarsLoop`: each name of `l`
paired with a RAM mapping at consecutive decreasing addresses from `a`. -/
def assignDown : List String → Int → List (String × VarMapping)
  | [], _ => []
  | n :: rest, a => (n, ⟨VarLocation.ram, some a⟩) :: assignDown rest (a - 1)

/-! ## NodeDetailPanel.tsx — source-map floor lookup -/

/-- `SourceMapEntry` (emitter output consumed by `findCubeLocation`):
instruction address, label, source line. -/
structure SourceMapEntry where
  addr : Nat
  label : String
  line : Nat
deriving DecidableEq, Repr

/-- The loop body of `findCubeLocation`: keep `entry` when `entry.addr ≤ pc`
and it improves on the best entry so far. -/
def floorStep (pc : Nat) (best : Option SourceMapEntry) (entry : SourceMapEntry) :
    Option SourceMapEntry :=
  if entry.addr ≤ pc then
    match best with
    | none => some entry
    | some b => if entry.addr > b.addr then some entry else best
  else best

/-- `findCubeLocation` from NodeDetailPanel.tsx: scans the source map keeping
the entry with the largest `addr` that is `≤ pc`; `null` becomes `none`. -/
def findCubeLocation (sourceMap : List SourceMapEntry) (pc : Nat) : Option SourceMapEntry :=
  sourceMap.foldl (floorStep pc) none

/-! ## urlSource.ts — base64url encoding

`toBase64url`/`fromBase64url` call the platform functions `btoa`/`atob`.
Those are embedded by their standard semantics (RFC 4648 base64 over a
sequence of char codes `< 256`); the intermediate JS binary string (char
code `i` ↔ byte `i`) is fused away, so `btoa : List Nat → List Char` maps a
byte list to the base64 character list and `atob` inverts it on valid
base64 input (which is all `fromBase64url` ever feeds it on the round-trip
path). -/

/-- The standard base64 alphabet, index `0`–`63`. -/
def b64chars : List Char :=
  ['A','B','C','D','E','F','G','H','I','J','K','L','M','N','O','P',
   'Q','R','S','T','U','V','W','X','Y','Z',
   'a','b','c','d','e','f','g','h','i','j','k','l','m','n','o','p',
   'q','r','s','t','u','v','w','x','y','z',
   '0','1','2','3','4','5','6','7','8','9','+','/']

/-- Character for a 6-bit value. -/
def b64encodeC (v : Nat) : Char :=
  b64chars.getD v '='

/-- 6-bit value of a base64 character (inverse of `b64encodeC` on the
alphabet). -/
def b64decodeC (c : Char) : Nat :=
  b64chars.indexOf c

/-- Platform `btoa` fused with the byte-to-char-code view: groups the byte
list into 3-byte chunks, emitting 4 base64 characters per chunk and padding
a trailing 1- or 2-byte chunk with `'='`. -/
def btoa : List Nat → List Char
  | b1 :: b2 :: b3 :: rest =>
      b64encodeC (b1 / 4) :: b64encodeC (b1 % 4 * 16 + b2 / 16) ::
      b64encodeC (b2 % 16 * 4 + b3 / 64) :: b64encodeC (b3 % 64) :: btoa rest
  | [b1, b2] =>
      [b64encodeC (b1 / 4), b64encodeC (b1 % 4 * 16 + b2 / 16),
       b64encodeC (b2 % 16 * 4), '=']
  | [b1] =>
      [b64encodeC (b1 / 4), b64encodeC (b1 % 4 * 16), '=', '=']
  | [] => []

/-- Platform `atob` on valid base64 text (4-character groups, `'='` padding
only at the end): emits 3 bytes per full group, 1 or 2 for a padded final
group.  Inputs outside that shape (where the real `atob` throws) decode to
the empty list; the round-trip claim never reaches them. -/
def atob : List Char → List Nat
  | c1 :: c2 :: c3 :: c4 :: rest =>
      if c3 = '=' then
        [b64decodeC c1 * 4 + b64decodeC c2 / 16]
      else if c4 = '=' then
        [b64decodeC c1 * 4 + b64decodeC c2 / 16,
         b64decodeC c2 % 16 * 16 + b64decodeC c3 / 4]
      else
        (b64decodeC c1 * 4 + b64decodeC c2 / 16) ::
        (b64decodeC c2 % 16 * 16 + b64decodeC c3 / 4) ::
        (b64decodeC c3 % 4 * 64 + b64decodeC c4) :: atob rest
  | _ => []

/-- JS `s.replace(/x/g, y)` for single characters: replace every occurrence
of `x` by `y`. -/
def replaceChar (x y : Char) (s : List Char) : List Char :=
  s.map fun c => if c = x then y else c

/-- JS `s.replace(/=+$/, '')`: drop the trailing run of `'='`. -/
def stripPad (s : List Char) : List Char :=
  (s.reverse.dropWhile (fun c => c = '=')).reverse

/-- The `while (b64.length % 4 !== 0) b64 += '='` loop of `fromBase64url`:
append `'='` until the length is a multiple of 4. -/
def padTo4 (s : List Char) : List Char :=
  s ++ List.replicate ((4 - s.length % 4) % 4) '='

/-- `toBase64url` from urlSource.ts: `btoa` then `+ → -`, `/ → _`, strip
trailing `'='`. -/
def toBase64url (bytes : List Nat) : List Char :=
  stripPad (replaceChar '/' '_' (replaceChar '+' '-' (btoa bytes)))

/-- `fromBase64url` from urlSource.ts: `- → +`, `_ → /`, pad to a multiple
of 4 with `'='`, then `atob`. -/
def fromBase64url (str : List Char) : List Nat :=
  atob (padTo4 (replaceChar '_' '/' (replaceChar '-' '+' str)))

/-! ## Pipeline model (stages not present under src/) -/

/-- Modelled from the spec: the compiler output consumed by external tooling
(§6) — per-node instruction streams and the address-sorted source map.  The
emitter/compiler modules are not under src/ (src/core/cube/index.ts only
re-exports them), so the output shape is taken from the spec's words. -/
structure CompileOutput where
  programsByNode : List (Nat × List Nat)
  sourceMap : List SourceMapEntry
deriving DecidableEq

/-- Modelled from the spec: the five-stage pipeline (§2) — tokenizer,
parser, resolver, emitter — whose implementations are not under src/.  Per
§5 the pipeline is single-threaded, synchronous and side-effect-free, each
stage consuming only the previous stage's output, so each stage is a
function of its input. -/
structure CubePipeline (Tok Ast Res : Type) where
  tokenize : String → Tok
  parse : Tok → Ast
  resolve : Ast → Res
  emit : Res → CompileOutput

/-- Modelled from the spec: `compileCube` (the façade's stage composition
`emit(resolve(parse(tokenize(s))))` of §8); the implementation is not under
src/. -/
def compileCube (p : CubePipeline Tok Ast Res) (s : String) : CompileOutput :=
  p.emit (p.resolve (p.parse (p.tokenize s)))

/-- A concrete pipeline instance, used to evaluate `compileCube` on a
specific input. -/
def trivialPipeline : CubePipeline (List Char) (List Char) (List Char) where
  tokenize := fun s => s.data
  parse := id
  resolve := id
  emit := fun r => ⟨[(0, r.map fun c => c.toNat)], []⟩

/-! ## Port-wiring validation model (emitter not present under src/) -/

/-- A port operation direction: `send` or `recv`. -/
inductive PortDir where
  | send
  | recv
deriving DecidableEq, Repr

/-- A port operation of a compiled program: direction plus numeric port. -/
structure PortOp where
  dir : PortDir
  port : Nat
deriving DecidableEq, Repr

/-- An emission diagnostic, as produced by the wiring validation. -/
structure EmissionError where
  message : String
deriving DecidableEq, Repr

/-- Modelled from the spec: the emitter's port-wiring validation (§4.5) —
the emitter is not under src/.  Every `send` on a port must have a
structurally reachable `recv` on the same port (and vice versa); an
unmatched port operation produces a fatal `EmissionError`. -/
def checkWiring (ops : List PortOp) : List EmissionError :=
  ops.filterMap fun op =>
    if ops.any fun o => o.port == op.port && o.dir != op.dir then
      none
    else
      some ⟨"unmatched port operation on port " ++ toString op.port⟩

/-! ## Lemmas: variable mapper -/

theorem mapVarsLoop_eq (names : List String) (a : Int) :
    mapVarsLoop names a =
      (assignDown (names.filter fun n => needsStorage n) a,
       a - (names.filter fun n => needsStorage n).length) := by
  induction names generalizing a with
  | nil => simp [mapVarsLoop, assignDown]
  | cons n rest ih =>
    cases hb : (startsWithUnderscore n || n == "coord") with
    | true =>
      have hn : needsStorage n = false := by simp [needsStorage, hb]
      simp [mapVarsLoop, hb, hn, ih]
    | false =>
      have hn : needsStorage n = true := by simp [needsStorage, hb]
      simp [mapVarsLoop, hb, hn, ih, assignDown]
      omega

theorem assignDown_fst (l : List String) (a : Int) :
    (assignDown l a).map Prod.fst = l := by
  induction l generalizing a with
  | nil => simp [assignDown]
  | cons n rest ih => simp [assignDown, ih]

theorem assignDown_addrs (l : List String) (a : Int) :
    (assignDown l a).map (fun p => p.2.ramAddr) =
      (List.range l.length).map (fun i : Nat => some (a - (i : Int))) := by
  induction l generalizing a with
  | nil => simp [assignDown]
  | cons n rest ih =>
    simp only [assignDown, List.map_cons, List.length_cons, List.range_succ_eq_map,
      List.map_map, ih]
    refine congrArg₂ List.cons (by simp) (List.map_congr_left ?_)
    intro i _
    simp only [Function.comp_apply]
    congr 1
    push_cast
    ring

theorem assignDown_lookup_none (l : List String) (a : Int) (name : String)
    (h : name ∉ l) : List.lookup name (assignDown l a) = none := by
  induction l generalizing a with
  | nil => simp [assignDown]
  | cons n rest ih =>
    have h1 : (name == n) = false :=
      beq_eq_false_iff_ne.mpr fun he => h (he ▸ List.mem_cons_self n rest)
    have h2 : name ∉ rest := fun hm => h (List.mem_cons_of_mem n hm)
    simp [assignDown, List.lookup, h1, ih _ h2]

theorem assignDown_lookup_shape (l : List String) (a : Int) (name : String)
    (m : VarMapping) (h : List.lookup name (assignDown l a) = some m) :
    ∃ ad : Int, m = ⟨VarLocation.ram, some ad⟩ := by
  induction l generalizing a with
  | nil => simp [assignDown, List.lookup] at h
  | cons n rest ih =>
    rw [assignDown, List.lookup] at h
    cases hbe : (name == n) with
    | true =>
      rw [hbe] at h
      exact ⟨a, (Option.some_inj.mp h).symm⟩
    | false =>
      rw [hbe] at h
      exact ih _ h

theorem allocRun_spec (counts : List Nat) (vm : VariableMap) :
    (allocRun vm counts).1 =
      (List.range counts.length).map (fun k => vm.nextFieldAddr + (counts.take k).sum) ∧
    (allocRun vm counts).2 =
      { vm with nextFieldAddr := vm.nextFieldAddr + counts.sum } := by
  induction counts generalizing vm with
  | nil => constructor <;> simp [allocRun]
  | cons c cs ih =>
    obtain ⟨ih1, ih2⟩ := ih { vm with nextFieldAddr := vm.nextFieldAddr + c }
    constructor
    · simp only [allocRun, allocateFields, ih1, List.length_cons, List.range_succ_eq_map,
        List.map_cons, List.map_map]
      refine congrArg₂ List.cons (by simp) (List.map_congr_left ?_)
      intro k _
      simp only [Function.comp_apply, List.take_succ_cons, List.sum_cons]
      omega
    · simp only [allocRun, allocateFields, ih2, List.sum_cons]
      congr 1
      omega

/-! ## Lemmas: source-map floor lookup -/

theorem floorStep_eq_none (pc : Nat) (best : Option SourceMapEntry) (e : SourceMapEntry) :
    floorStep pc best e = none ↔ best = none ∧ pc < e.addr := by
  unfold floorStep
  cases best with
  | none =>
    by_cases he : e.addr ≤ pc
    · simp [he]
    · simp [he]
      omega
  | some b =>
    by_cases he : e.addr ≤ pc
    · by_cases hgt : e.addr > b.addr <;> simp [he, hgt]
    · simp [he]

theorem floorStep_wf (pc : Nat) (best : Option SourceMapEntry) (e : SourceMapEntry)
    (hw : ∀ b0, best = some b0 → b0.addr ≤ pc) :
    ∀ b1, floorStep pc best e = some b1 → b1.addr ≤ pc := by
  intro b1 h
  unfold floorStep at h
  cases best with
  | none =>
    by_cases he : e.addr ≤ pc
    · simp [he] at h
      subst h
      exact he
    · simp [he] at h
  | some b0 =>
    by_cases he : e.addr ≤ pc
    · by_cases hgt : e.addr > b0.addr
      · simp [he, hgt] at h
        subst h
        exact he
      · simp [he, hgt] at h
        subst h
        exact hw _ rfl
    · simp [he] at h
      subst h
      exact hw _ rfl

theorem floorStep_mono (pc : Nat) (best : Option SourceMapEntry) (e : SourceMapEntry)
    (b0 : SourceMapEntry) (h : best = some b0) :
    ∃ b1, floorStep pc best e = some b1 ∧ b0.addr ≤ b1.addr := by
  subst h
  unfold floorStep
  by_cases he : e.addr ≤ pc
  · by_cases hgt : e.addr > b0.addr
    · exact ⟨e, by simp [he, hgt], by omega⟩
    · exact ⟨b0, by simp [he, hgt], Nat.le_refl _⟩
  · exact ⟨b0, by simp [he], Nat.le_refl _⟩

theorem floorStep_covers (pc : Nat) (best : Option SourceMapEntry) (e : SourceMapEntry)
    (he : e.addr ≤ pc) :
    ∃ b1, floorStep pc best e = some b1 ∧ e.addr ≤ b1.addr := by
  unfold floorStep
  cases best with
  | none => exact ⟨e, by simp [he], Nat.le_refl _⟩
  | some b0 =>
    by_cases hgt : e.addr > b0.addr
    · exact ⟨e, by simp [he, hgt], Nat.le_refl _⟩
    · exact ⟨b0, by simp [he, hgt], by omega⟩

theorem floorStep_shape (pc : Nat) (best : Option SourceMapEntry) (e : SourceMapEntry) :
    floorStep pc best e = best ∨ (e.addr ≤ pc ∧ floorStep pc best e = some e) := by
  unfold floorStep
  cases best with
  | none =>
    by_cases he : e.addr ≤ pc
    · exact Or.inr ⟨he, by simp [he]⟩
    · exact Or.inl (by simp [he])
  | some b0 =>
    by_cases he : e.addr ≤ pc
    · by_cases hgt : e.addr > b0.addr
      · exact Or.inr ⟨he, by simp [he, hgt]⟩
      · exact Or.inl (by simp [he, hgt])
    · exact Or.inl (by simp [he])

theorem floorFold_none_iff (pc : Nat) (sm : List SourceMapEntry) :
    ∀ best : Option SourceMapEntry,
      (sm.foldl (floorStep pc) best = none ↔ best = none ∧ ∀ e ∈ sm, pc < e.addr) := by
  induction sm with
  | nil => intro best; simp
  | cons e rest ih =>
    intro best
    rw [List.foldl_cons, ih, floorStep_eq_none, List.forall_mem_cons]
    tauto

theorem floorFold_some (pc : Nat) (sm : List SourceMapEntry) :
    ∀ best : Option SourceMapEntry,
      (∀ b0, best = some b0 → b0.addr ≤ pc) →
      ∀ b, sm.foldl (floorStep pc) best = some b →
        b.addr ≤ pc ∧ (best = some b ∨ b ∈ sm) ∧
        (∀ e ∈ sm, e.addr ≤ pc → e.addr ≤ b.addr) ∧
        (∀ b0, best = some b0 → b0.addr ≤ b.addr) := by
  induction sm with
  | nil =>
    intro best hw b hb
    rw [List.foldl_nil] at hb
    refine ⟨hw b hb, Or.inl hb, by simp, ?_⟩
    intro b0 h0
    rw [hb] at h0
    rw [(Option.some_inj.mp h0).symm]
  | cons e rest ih =>
    intro best hw b hb
    rw [List.foldl_cons] at hb
    have hw' := floorStep_wf pc best e hw
    obtain ⟨hble, hmem, hmax, himp⟩ := ih (floorStep pc best e) hw' b hb
    refine ⟨hble, ?_, ?_, ?_⟩
    · rcases hmem with hm | hm
      · rcases floorStep_shape pc best e with hs | ⟨_, hs⟩
        · exact Or.inl (hs ▸ hm)
        · rw [hs] at hm
          exact Or.inr ((Option.some_inj.mp hm) ▸ List.mem_cons_self e rest)
      · exact Or.inr (List.mem_cons_of_mem e hm)
    · rw [List.forall_mem_cons]
      refine ⟨?_, hmax⟩
      intro hle
      obtain ⟨b1, hb1, hcov⟩ := floorStep_covers pc best e hle
      exact Nat.le_trans hcov (himp b1 hb1)
    · intro b0 h0
      obtain ⟨b1, hb1, hmono⟩ := floorStep_mono pc best e b0 h0
      exact Nat.le_trans hmono (himp b1 hb1)

/-! ## Lemmas: base64url round-trip -/

theorem b64_dec_enc_fin : ∀ v : Fin 64, b64decodeC (b64encodeC v.val) = v.val := by decide

theorem b64_dec_enc (v : Nat) (h : v < 64) : b64decodeC (b64encodeC v) = v :=
  b64_dec_enc_fin ⟨v, h⟩

theorem b64_enc_ne_pad_fin : ∀ v : Fin 64, b64encodeC v.val ≠ '=' := by decide

theorem b64_enc_ne_pad (v : Nat) (h : v < 64) : b64encodeC v ≠ '=' :=
  b64_enc_ne_pad_fin ⟨v, h⟩

theorem b64_enc_mem_fin : ∀ v : Fin 64, b64encodeC v.val ∈ b64chars := by decide

theorem b64_enc_mem (v : Nat) (h : v < 64) : b64encodeC v ∈ b64chars :=
  b64_enc_mem_fin ⟨v, h⟩

theorem url_char_id : ∀ c ∈ b64chars,
    (fun c => if c = '_' then '/' else c)
      ((fun c => if c = '-' then '+' else c)
        ((fun c => if c = '/' then '_' else c)
          ((fun c => if c = '+' then '-' else c) c))) = c := by decide

theorem url_fwd_ne_pad : ∀ c ∈ b64chars,
    ((fun c => if c = '/' then '_' else c)
      ((fun c => if c = '+' then '-' else c) c)) ≠ '=' := by decide

theorem atob_btoa : ∀ (bs : List Nat), (∀ b ∈ bs, b < 256) → atob (btoa bs) = bs
  | [], _ => rfl
  | [b1], h => by
    have hb1 : b1 < 256 := h b1 (by simp)
    have h1 := b64_dec_enc (b1 / 4) (by omega)
    have h2 := b64_dec_enc (b1 % 4 * 16) (by omega)
    show atob [b64encodeC (b1 / 4), b64encodeC (b1 % 4 * 16), '=', '='] = [b1]
    simp [atob, h1, h2]
    omega
  | [b1, b2], h => by
    have hb1 : b1 < 256 := h b1 (by simp)
    have hb2 : b2 < 256 := h b2 (by simp)
    have h1 := b64_dec_enc (b1 / 4) (by omega)
    have h2 := b64_dec_enc (b1 % 4 * 16 + b2 / 16) (by omega)
    have h3 := b64_dec_enc (b2 % 16 * 4) (by omega)
    have n3 := b64_enc_ne_pad (b2 % 16 * 4) (by omega)
    show atob [b64encodeC (b1 / 4), b64encodeC (b1 % 4 * 16 + b2 / 16),
               b64encodeC (b2 % 16 * 4), '='] = [b1, b2]
    simp [atob, n3, h1, h2, h3]
    omega
  | b1 :: b2 :: b3 :: rest, h => by
    have hb1 : b1 < 256 := h b1 (by simp)
    have hb2 : b2 < 256 := h b2 (by simp)
    have hb3 : b3 < 256 := h b3 (by simp)
    have ih := atob_btoa rest (fun b hb => h b (by simp [hb]))
    have h1 := b64_dec_enc (b1 / 4) (by omega)
    have h2 := b64_dec_enc (b1 % 4 * 16 + b2 / 16) (by omega)
    have h3 := b64_dec_enc (b2 % 16 * 4 + b3 / 64) (by omega)
    have h4 := b64_dec_enc (b3 % 64) (by omega)
    have n3 := b64_enc_ne_pad (b2 % 16 * 4 + b3 / 64) (by omega)
    have n4 := b64_enc_ne_pad (b3 % 64) (by omega)
    show atob (b64encodeC (b1 / 4) :: b64encodeC (b1 % 4 * 16 + b2 / 16) ::
               b64encodeC (b2 % 16 * 4 + b3 / 64) :: b64encodeC (b3 % 64) ::
               btoa rest) = b1 :: b2 :: b3 :: rest
    simp [atob, n3, n4, h1, h2, h3, h4, ih]
    omega

theorem btoa_structure : ∀ (bs : List Nat), (∀ b ∈ bs, b < 256) →
    ∃ body p, btoa bs = body ++ List.replicate p '=' ∧ p ≤ 2 ∧
      (body.length + p) % 4 = 0 ∧ ∀ c ∈ body, c ∈ b64chars
  | [], _ => ⟨[], 0, rfl, by omega, by simp, by simp⟩
  | [b1], h => by
    have hb1 : b1 < 256 := h b1 (by simp)
    refine ⟨[b64encodeC (b1 / 4), b64encodeC (b1 % 4 * 16)], 2, rfl, by omega, by simp, ?_⟩
    intro c hc
    simp only [List.mem_cons, List.not_mem_nil, or_false] at hc
    rcases hc with rfl | rfl
    · exact b64_enc_mem _ (by omega)
    · exact b64_enc_mem _ (by omega)
  | [b1, b2], h => by
    have hb1 : b1 < 256 := h b1 (by simp)
    have hb2 : b2 < 256 := h b2 (by simp)
    refine ⟨[b64encodeC (b1 / 4), b64encodeC (b1 % 4 * 16 + b2 / 16),
             b64encodeC (b2 % 16 * 4)], 1, rfl, by omega, by simp, ?_⟩
    intro c hc
    simp only [List.mem_cons, List.not_mem_nil, or_false] at hc
    rcases hc with rfl | rfl | rfl
    · exact b64_enc_mem _ (by omega)
    · exact b64_enc_mem _ (by omega)
    · exact b64_enc_mem _ (by omega)
  | b1 :: b2 :: b3 :: rest, h => by
    have hb1 : b1 < 256 := h b1 (by simp)
    have hb2 : b2 < 256 := h b2 (by simp)
    have hb3 : b3 < 256 := h b3 (by simp)
    obtain ⟨body, p, heq, hp, hmod, hmem⟩ :=
      btoa_structure rest (fun b hb => h b (by simp [hb]))
    refine ⟨b64encodeC (b1 / 4) :: b64encodeC (b1 % 4 * 16 + b2 / 16) ::
            b64encodeC (b2 % 16 * 4 + b3 / 64) :: b64encodeC (b3 % 64) :: body,
            p, ?_, hp, ?_, ?_⟩
    · have hun : btoa (b1 :: b2 :: b3 :: rest) =
          b64encodeC (b1 / 4) :: b64encodeC (b1 % 4 * 16 + b2 / 16) ::
          b64encodeC (b2 % 16 * 4 + b3 / 64) :: b64encodeC (b3 % 64) :: btoa rest := rfl
      rw [hun, heq]
      simp
    · simp only [List.length_cons]
      omega
    · intro c hc
      simp only [List.mem_cons] at hc
      rcases hc with rfl | rfl | rfl | rfl | hc
      · exact b64_enc_mem _ (by omega)
      · exact b64_enc_mem _ (by omega)
      · exact b64_enc_mem _ (by omega)
      · exact b64_enc_mem _ (by omega)
      · exact hmem c hc

theorem dropEq_replicate_append (p : Nat) (l : List Char) :
    (List.replicate p '=' ++ l).dropWhile (fun c => c = '=') =
      l.dropWhile (fun c => c = '=') := by
  induction p with
  | zero => simp
  | succ q ih => simp [List.replicate_succ, ih]

theorem dropWhile_eq_self_of_ne (l : List Char) (h : ∀ c ∈ l, c ≠ '=') :
    l.dropWhile (fun c => c = '=') = l := by
  cases l with
  | nil => rfl
  | cons c cs =>
    have hc : ¬(c = '=') := h c (List.mem_cons_self _ _)
    simp [List.dropWhile_cons, hc]

theorem stripPad_structure (body : List Char) (p : Nat) (h : ∀ c ∈ body, c ≠ '=') :
    stripPad (body ++ List.replicate p '=') = body := by
  unfold stripPad
  rw [List.reverse_append, List.reverse_replicate, dropEq_replicate_append,
      dropWhile_eq_self_of_ne, List.reverse_reverse]
  intro c hc
  exact h c (List.mem_reverse.mp hc)

theorem padTo4_replicate (body : List Char) (p : Nat) (hp : p ≤ 2)
    (hmod : (body.length + p) % 4 = 0) :
    padTo4 body = body ++ List.replicate p '=' := by
  unfold padTo4
  have hlen : (4 - body.length % 4) % 4 = p := by omega
  rw [hlen]

theorem url_replace_roundtrip (l : List Char) (h : ∀ c ∈ l, c ∈ b64chars) :
    replaceChar '_' '/' (replaceChar '-' '+'
      (replaceChar '/' '_' (replaceChar '+' '-' l))) = l := by
  induction l with
  | nil => rfl
  | cons c cs ih =>
    have hc : c ∈ b64chars := h c (by simp)
    have hcs : ∀ x ∈ cs, x ∈ b64chars := fun x hx => h x (by simp [hx])
    simp only [replaceChar, List.map_cons] at *
    exact congrArg₂ List.cons (url_char_id c hc) (ih hcs)

/-! ## Claim theorems -/

/-- **C9.** The base64url encoding used for URL source sharing round-trips:
for every byte array `b` (elements `< 256`), `fromBase64url (toBase64url b)`
returns a byte array equal to `b`. -/
theorem fromBase64url_toBase64url (bs : List Nat) (h : ∀ b ∈ bs, b < 256) :
    fromBase64url (toBase64url bs) = bs := by
  obtain ⟨body, p, heq, hp, hmod, hmem⟩ := btoa_structure bs h
  have hfwd : toBase64url bs = replaceChar '/' '_' (replaceChar '+' '-' body) := by
    unfold toBase64url
    rw [heq]
    simp [replaceChar, List.map_append]
    apply stripPad_structure
    intro c hc
    rcases List.mem_map.mp hc with ⟨c0, hc0, rfl⟩
    exact url_fwd_ne_pad c0 (hmem c0 hc0)
  unfold fromBase64url
  rw [hfwd, url_replace_roundtrip body hmem, padTo4_replicate body p hp hmod, ← heq]
  exact atob_btoa bs h

/-- Witness for C9 at a concrete byte array. -/
theorem fromBase64url_toBase64url_witness :
    (∀ b ∈ [0, 100, 255, 7], b < 256) ∧
      fromBase64url (toBase64url [0, 100, 255, 7]) = [0, 100, 255, 7] :=
  ⟨by decide, fromBase64url_toBase64url [0, 100, 255, 7] (by decide)⟩

/-- **C1.** For every input set of variable names (`Nodup` list in iteration
order), `mapVariables` maps exactly the storage-requiring names, in
iteration order, to pairwise-distinct RAM addresses
`0x3F, 0x3E, ..., 0x3F - (N - 1)`. -/
theorem mapVariables_descending_distinct (names : List String) (_hnd : names.Nodup) :
    (mapVariables names).vars.map Prod.fst = names.filter (fun n => needsStorage n) ∧
    (mapVariables names).vars.map (fun p => p.2.ramAddr) =
      (List.range (names.filter (fun n => needsStorage n)).length).map
        (fun i : Nat => some ((0x3F : Int) - (i : Int))) ∧
    ((mapVariables names).vars.map (fun p => p.2.ramAddr)).Nodup := by
  have hv : (mapVariables names).vars =
      assignDown (names.filter fun n => needsStorage n) 0x3F := by
    simp [mapVariables, mapVarsLoop_eq]
  refine ⟨?_, ?_, ?_⟩
  · rw [hv, assignDown_fst]
  · rw [hv, assignDown_addrs]
  · rw [hv, assignDown_addrs]
    refine List.Nodup.map ?_ (List.nodup_range _)
    intro i j hij
    simp only [Option.some_inj] at hij
    omega

/-- Witness for C1 at a concrete name set. -/
theorem mapVariables_descending_distinct_witness :
    (["a", "b", "c"] : List String).Nodup ∧
    ((mapVariables ["a", "b", "c"]).vars.map Prod.fst =
        ["a", "b", "c"].filter (fun n => needsStorage n) ∧
      (mapVariables ["a", "b", "c"]).vars.map (fun p => p.2.ramAddr) =
        (List.range (["a", "b", "c"].filter (fun n => needsStorage n)).length).map
          (fun i : Nat => some ((0x3F : Int) - (i : Int))) ∧
      ((mapVariables ["a", "b", "c"]).vars.map (fun p => p.2.ramAddr)).Nodup) :=
  ⟨by decide, mapVariables_descending_distinct ["a", "b", "c"] (by decide)⟩

/-- **C2 (evaluation at the failing input).** With 32 storage-requiring
variables, the RAM region counting down from `0x3F` reaches `0x20`: variable
`"v31"` is assigned address `0x20`, yet `allocateFields` still hands out the
overlapping field base `0x20` and bumps the counter, with no error of any
kind — `mapVariables`/`allocateFields` have no overlap check and no error
channel, contradicting the spec's fatal `AllocationError`. -/
theorem varmapper_no_overlap_check :
    List.lookup "v31" (mapVariables
      ["v00", "v01", "v02", "v03", "v04", "v05", "v06", "v07",
       "v08", "v09", "v10", "v11", "v12", "v13", "v14", "v15",
       "v16", "v17", "v18", "v19", "v20", "v21", "v22", "v23",
       "v24", "v25", "v26", "v27", "v28", "v29", "v30", "v31"]).vars =
      some ⟨VarLocation.ram, some 0x20⟩ ∧
    (allocateFields (mapVariables
      ["v00", "v01", "v02", "v03", "v04", "v05", "v06", "v07",
       "v08", "v09", "v10", "v11", "v12", "v13", "v14", "v15",
       "v16", "v17", "v18", "v19", "v20", "v21", "v22", "v23",
       "v24", "v25", "v26", "v27", "v28", "v29", "v30", "v31"]) 1).1 = 0x20 ∧
    (allocateFields (mapVariables
      ["v00", "v01", "v02", "v03", "v04", "v05", "v06", "v07",
       "v08", "v09", "v10", "v11", "v12", "v13", "v14", "v15",
       "v16", "v17", "v18", "v19", "v20", "v21", "v22", "v23",
       "v24", "v25", "v26", "v27", "v28", "v29", "v30", "v31"]) 1).2.nextFieldAddr
      = 0x21 := by
  refine ⟨?_, rfl, rfl⟩
  decide

/-- **C2 (amended).** The storage allocator performs no overlap or
exhaustion detection and has no error channel at all: for every input,
`mapVariables` decrements the RAM counter to `0x3F - N` without bound (past
the field base when `N > 31`), and `allocateFields` on the resulting map
unconditionally hands out the field base `0x20` and advances the counter,
returning normally even when the two growth regions meet. -/
theorem allocateFields_unchecked (names : List String) (count : Nat) :
    (allocateFields (mapVariables names) count).1 = 0x20 ∧
    (allocateFields (mapVariables names) count).2.nextFieldAddr = 0x20 + count ∧
    (mapVariables names).nextRamAddr =
      (0x3F : Int) - ((names.filter fun n => needsStorage n).length : Int) := by
  refine ⟨rfl, rfl, ?_⟩
  simp [mapVariables, mapVarsLoop_eq]

/-- **C3.** A name starting with `'_'` or equal to `"coord"` is absent from
the returned variable map and does not advance the RAM address counter:
`mapVariables` gives the same result as on the input with all such names
removed. -/
theorem mapVariables_skips_internal (names : List String) (name : String)
    (h : (startsWithUnderscore name || name == "coord") = true) :
    List.lookup name (mapVariables names).vars = none ∧
    mapVariables names = mapVariables (names.filter fun n => needsStorage n) := by
  constructor
  · have hns : needsStorage name = false := by simp [needsStorage, h]
    have hv : (mapVariables names).vars =
        assignDown (names.filter fun n => needsStorage n) 0x3F := by
      simp [mapVariables, mapVarsLoop_eq]
    rw [hv]
    apply assignDown_lookup_none
    intro hmem
    rw [List.mem_filter, hns] at hmem
    exact absurd hmem.2 (by simp)
  · simp [mapVariables, mapVarsLoop_eq, List.filter_filter]

/-- Witness for C3 at a concrete name set containing both excluded forms. -/
theorem mapVariables_skips_internal_witness :
    ((startsWithUnderscore "_t" || "_t" == "coord") = true) ∧
    (List.lookup "_t" (mapVariables ["x", "_t", "coord"]).vars = none ∧
     mapVariables ["x", "_t", "coord"] =
       mapVariables (["x", "_t", "coord"].filter fun n => needsStorage n)) :=
  ⟨by decide, mapVariables_skips_internal ["x", "_t", "coord"] "_t" (by decide)⟩

/-- **C4.** Constructor field blocks are allocated contiguously upward from
`0x20` on a fresh map:  over any sequence of `allocateFields` calls, the
`k`-th call returns `0x20` plus the sum of all preceding counts (so the
first returns `0x20`, blocks are consecutive, and no cell is reused or
freed), and the final counter is `0x20` plus the total. -/
theorem allocateFields_contiguous (names : List String) (counts : List Nat) :
    (allocRun (mapVariables names) counts).1 =
      (List.range counts.length).map (fun k => 0x20 + (counts.take k).sum) ∧
    (allocRun (mapVariables names) counts).2.nextFieldAddr = 0x20 + counts.sum := by
  obtain ⟨h1, h2⟩ := allocRun_spec counts (mapVariables names)
  have hbase : (mapVariables names).nextFieldAddr = 0x20 := rfl
  constructor
  · rw [h1]
    simp only [hbase]
  · rw [h2]
    simp [hbase]

/-- **C5.** Source-map lookup is floor lookup: on an address-sorted source
map, whenever some entry's address does not exceed the query `pc`,
`findCubeLocation` returns an entry with the greatest `addr ≤ pc`. -/
theorem findCubeLocation_floor (sm : List SourceMapEntry) (pc : Nat)
    (_hsorted : List.Chain' (fun a b => a.addr ≤ b.addr) sm)
    (hex : ∃ e ∈ sm, e.addr ≤ pc) :
    ∃ e, findCubeLocation sm pc = some e ∧ e ∈ sm ∧ e.addr ≤ pc ∧
      ∀ e2 ∈ sm, e2.addr ≤ pc → e2.addr ≤ e.addr := by
  obtain ⟨e0, he0, hle0⟩ := hex
  cases hres : findCubeLocation sm pc with
  | none =>
    have hn := (floorFold_none_iff pc sm none).mp hres
    exact absurd (hn.2 e0 he0) (by omega)
  | some b =>
    have hw : ∀ b0 : SourceMapEntry, (none : Option SourceMapEntry) = some b0 →
        b0.addr ≤ pc := by
      intro b0 h0
      exact absurd h0 (by simp)
    obtain ⟨hble, hmem, hmax, _⟩ := floorFold_some pc sm none hw b hres
    rcases hmem with hm | hm
    · exact absurd hm (by simp)
    · exact ⟨b, rfl, hm, hble, hmax⟩

/-- Witness for C5 at a concrete sorted source map. -/
theorem findCubeLocation_floor_witness :
    List.Chain' (fun a b : SourceMapEntry => a.addr ≤ b.addr)
      [⟨0, "a", 1⟩, ⟨4, "b", 2⟩] ∧
    (∃ e ∈ [SourceMapEntry.mk 0 "a" 1, SourceMapEntry.mk 4 "b" 2], e.addr ≤ 5) ∧
    ∃ e, findCubeLocation [⟨0, "a", 1⟩, ⟨4, "b", 2⟩] 5 = some e ∧
      e ∈ [SourceMapEntry.mk 0 "a" 1, SourceMapEntry.mk 4 "b" 2] ∧ e.addr ≤ 5 ∧
      ∀ e2 ∈ [SourceMapEntry.mk 0 "a" 1, SourceMapEntry.mk 4 "b" 2],
        e2.addr ≤ 5 → e2.addr ≤ e.addr :=
  ⟨by simp [List.chain'_cons], by decide,
    findCubeLocation_floor [⟨0, "a", 1⟩, ⟨4, "b", 2⟩] 5
      (by simp [List.chain'_cons]) (by decide)⟩

/-- **C10.** `findCubeLocation` returns `none` exactly when no source-map
entry has `addr ≤ pc` (in particular on the empty map or below the first
mapped address); otherwise it returns a non-null entry. -/
theorem findCubeLocation_none_iff (sm : List SourceMapEntry) (pc : Nat) :
    findCubeLocation sm pc = none ↔ ∀ e ∈ sm, ¬ e.addr ≤ pc := by
  refine Iff.trans (floorFold_none_iff pc sm none) ?_
  simp [Nat.not_le]

/-- **C8.** Every mapping produced by `mapVariables` is RAM-resident with a
defined address, and `allocateFields` (the only other varmapper operation)
never touches the variable table — the `stack` location is never assigned. -/
theorem mapVariables_ram_only (names : List String) (name : String) (m : VarMapping)
    (h : List.lookup name (mapVariables names).vars = some m) :
    m.location = VarLocation.ram ∧ m.ramAddr.isSome = true ∧
    ∀ count : Nat, (allocateFields (mapVariables names) count).2.vars =
      (mapVariables names).vars := by
  have hv : (mapVariables names).vars =
      assignDown (names.filter fun n => needsStorage n) 0x3F := by
    simp [mapVariables, mapVarsLoop_eq]
  rw [hv] at h
  obtain ⟨ad, rfl⟩ := assignDown_lookup_shape _ _ _ _ h
  exact ⟨rfl, rfl, fun count => rfl⟩

/-- Witness for C8 at a concrete lookup. -/
theorem mapVariables_ram_only_witness :
    List.lookup "x" (mapVariables ["x"]).vars =
      some ⟨VarLocation.ram, some 0x3F⟩ ∧
    ((⟨VarLocation.ram, some 0x3F⟩ : VarMapping).location = VarLocation.ram ∧
      (⟨VarLocation.ram, some 0x3F⟩ : VarMapping).ramAddr.isSome = true ∧
      ∀ count : Nat, (allocateFields (mapVariables ["x"]) count).2.vars =
        (mapVariables ["x"]).vars) :=
  ⟨by decide, mapVariables_ram_only ["x"] "x" ⟨VarLocation.ram, some 0x3F⟩ (by decide)⟩

/-- **C6.** (Stages modelled from the spec.)  The pipeline composition
`emit(resolve(parse(tokenize(s))))` is deterministic: identical source text
yields identical per-node instruction streams and identical source maps. -/
theorem compileCube_deterministic {Tok Ast Res : Type}
    (p : CubePipeline Tok Ast Res) (s1 s2 : String) (h : s1 = s2) :
    (compileCube p s1).programsByNode = (compileCube p s2).programsByNode ∧
    (compileCube p s1).sourceMap = (compileCube p s2).sourceMap := by
  subst h
  exact ⟨rfl, rfl⟩

/-- Witness for C6 on a concrete pipeline and source. -/
theorem compileCube_deterministic_witness :
    ("ab" : String) = "ab" ∧
    ((compileCube trivialPipeline "ab").programsByNode =
        (compileCube trivialPipeline "ab").programsByNode ∧
      (compileCube trivialPipeline "ab").sourceMap =
        (compileCube trivialPipeline "ab").sourceMap) :=
  ⟨rfl, compileCube_deterministic trivialPipeline "ab" "ab" rfl⟩

/-- **C7.** (Wiring validation modelled from the spec.)  In a program whose
wiring check passes, every `send` on a port `P` has a matching `recv` on `P`
among the compiled port operations; and removing the matching `recv`s makes
the wiring check report an `EmissionError` (a nonempty error list), never
passing silently. -/
theorem checkWiring_send_matched (ops : List PortOp) (op : PortOp)
    (hmem : op ∈ ops) (hsend : op.dir = PortDir.send)
    (hok : checkWiring ops = []) :
    (∃ r ∈ ops, r.dir = PortDir.recv ∧ r.port = op.port) ∧
    checkWiring (ops.filter fun o => !(o.dir == PortDir.recv && o.port == op.port))
      ≠ [] := by
  constructor
  · have hf := (List.filterMap_eq_nil_iff.mp hok) op hmem
    by_cases hc : (ops.any fun o => o.port == op.port && o.dir != op.dir) = true
    · obtain ⟨o, ho, hcond⟩ := List.any_eq_true.mp hc
      simp only [Bool.and_eq_true, beq_iff_eq, bne_iff_ne] at hcond
      refine ⟨o, ho, ?_, hcond.1⟩
      cases ho2 : o.dir with
      | send => exact absurd (ho2.trans hsend.symm) hcond.2
      | recv => rfl
    · rw [if_neg hc] at hf
      exact absurd hf (by simp)
  · intro hnil
    have hop2 : op ∈ ops.filter
        (fun o => !(o.dir == PortDir.recv && o.port == op.port)) := by
      rw [List.mem_filter]
      refine ⟨hmem, ?_⟩
      simp [hsend]
    have hf := (List.filterMap_eq_nil_iff.mp hnil) op hop2
    have hcond : ((ops.filter fun o => !(o.dir == PortDir.recv && o.port == op.port)).any
        fun o => o.port == op.port && o.dir != op.dir) = false := by
      rw [List.any_eq_false]
      intro o ho
      rw [List.mem_filter] at ho
      obtain ⟨_, ho2⟩ := ho
      intro hcontra
      rw [Bool.and_eq_true] at hcontra
      obtain ⟨hport, hdir⟩ := hcontra
      rw [beq_iff_eq] at hport
      rw [bne_iff_ne] at hdir
      have hrecv : o.dir = PortDir.recv := by
        cases hd : o.dir with
        | recv => rfl
        | send => exact absurd (hd.trans hsend.symm) hdir
      rw [hrecv, hport] at ho2
      simp at ho2
    rw [if_neg (by rw [hcond]; simp)] at hf
    exact absurd hf (by simp)

/-- Witness for C7 on a concrete matched program. -/
theorem checkWiring_send_matched_witness :
    (∃ r ∈ [PortOp.mk PortDir.send 1, PortOp.mk PortDir.recv 1],
        r.dir = PortDir.recv ∧ r.port = (PortOp.mk PortDir.send 1).port) ∧
    checkWiring (([PortOp.mk PortDir.send 1, PortOp.mk PortDir.recv 1]).filter
        fun o => !(o.dir == PortDir.recv && o.port == (PortOp.mk PortDir.send 1).port))
      ≠ [] :=
  checkWiring_send_matched [PortOp.mk PortDir.send 1, PortOp.mk PortDir.recv 1]
    (PortOp.mk PortDir.send 1) (by decide) rfl (by decide)

end Cubed
